import Mathlib

/-!
A shallow embedding of `src/prep_data.py` and `src/config.py` of the
ESG_Regression repository, together with theorems settling the frozen
claims about its specification.

Spreadsheet cells are modelled by the inductive type `Cell`: a cell is
either missing (Python `None` / float NaN) or carries text (any other
scalar, viewed through `str(...)` as the Python code does before
normalizing).  Pandas frames are modelled as lists of rows; numeric
cell values as exact decimals (with `none` for NaN); the z-score
arithmetic, which the Python code performs on floats, is modelled over
the reals with NaN propagation made explicit through `Option ℝ`.
-/

namespace ESGPrep

/-- A raw spreadsheet cell: missing (`None`/NaN) or a scalar rendered as text. -/
inductive Cell where
  | missing : Cell
  | str : String → Cell
deriving DecidableEq, Repr, Inhabited

/-! ## Configuration constants (from `src/config.py`) -/

def WORKSHEET_NAME : String := "Worksheet"

def HEADER_SCAN_START_ROW : Nat := 2000

def HEADER_SCAN_MAX_ROWS : Nat := 3000

/-- `EXPECTED_HEADERS` from `src/config.py`. -/
def EXPECTED_HEADERS : List String :=
  [ "date",
    "rendite_1_quartal",
    "volatility 260 day calc",
    "return on common equity",
    "price to book ratio",
    "book to market ratio",
    "bloomberg_esg",
    "refinitiv_esg",
    "rendite_2_quartal" ]

/-! ## Header normalizer (`_norm` in `src/prep_data.py`)

`_norm` does: `str(s).strip().lower()`, then `re.sub(r"\s+", " ", s)`,
then `s.replace("\n", " ").strip()`, with `None`/NaN mapped to `""`.
Each step is embedded at the level of character lists. -/

/-- The ASCII whitespace code points recognized by Python `str.strip` and
`\s`: space 32, tab 9, newline 10, carriage return 13, vertical tab 11,
form feed 12. -/
def isWScode (n : Nat) : Bool :=
  n == 32 || n == 9 || n == 10 || n == 13 || n == 11 || n == 12

def isWS (c : Char) : Bool := isWScode c.toNat

/-- Python `str.strip`: drop whitespace from both ends. -/
def stripWS (l : List Char) : List Char :=
  List.rdropWhile isWS (List.dropWhile isWS l)

/-- `re.sub(r"\s+", " ", s)`: each maximal whitespace run becomes one space.
The flag records whether the previous character was whitespace. -/
def collapseWS : Bool → List Char → List Char
  | _, [] => []
  | prevWS, c :: rest =>
    if isWS c then
      if prevWS then collapseWS true rest
      else ' ' :: collapseWS true rest
    else c :: collapseWS false rest

/-- `s.replace("\n", " ")` at the character level. -/
def replNL (c : Char) : Char := if c = '\n' then ' ' else c

/-- The full normalization chain of `_norm` on a non-missing value. -/
def normChars (l : List Char) : List Char :=
  stripWS (List.map replNL (collapseWS false (List.map Char.toLower (stripWS l))))

/-- `_norm` applied to a value already held as a string. -/
def normString (s : String) : String :=
  String.mk (normChars s.data)

/-- `_norm`: normalize a header cell for robust matching. -/
def norm : Cell → String
  | .missing => ""
  | .str s => normString s

/-- Whitespace-adjacency freedom: no two neighbouring whitespace characters. -/
abbrev noWWpair (a b : Char) : Prop := ¬ (isWS a = true ∧ isWS b = true)

/-- The head, if any, is not whitespace. -/
abbrev headNotWS (l : List Char) : Prop := ∀ c ∈ l.head?, isWS c = false

/-- The shape of a fully normalized character list: no surrounding
whitespace, all characters lower-case-fixed, every whitespace character a
single space, no two adjacent whitespace characters. -/
def goodNorm (l : List Char) : Prop :=
  stripWS l = l ∧ (∀ c ∈ l, Char.toLower c = c) ∧
    (∀ c ∈ l, isWS c = true → c = ' ') ∧ List.Chain' noWWpair l

/-! ## Date parsing (`pd.to_datetime(..., format=DATE_FORMAT, errors="coerce")`)

`DATE_FORMAT = "%m/%d/%Y"`.  A parsed date is encoded as the natural
number `y * 10000 + m * 100 + d`, which orders dates chronologically.
Unparseable input yields `none` (pandas `NaT`). -/

/-- Digits of a nonempty all-digit character list, as a number. -/
def parseNatDigits (l : List Char) : Option Nat :=
  if !l.isEmpty && l.all Char.isDigit then
    some (l.foldl (fun a c => a * 10 + (c.toNat - 48)) 0)
  else none

def isLeap (y : Nat) : Bool :=
  (y % 4 == 0 && y % 100 != 0) || y % 400 == 0

def daysInMonth (m y : Nat) : Nat :=
  if m == 2 then (if isLeap y then 29 else 28)
  else if m == 4 || m == 6 || m == 9 || m == 11 then 30 else 31

/-- Split a character list at every `'/'`. -/
def splitSlash : List Char → List (List Char)
  | [] => [[]]
  | c :: rest =>
    if c = '/' then [] :: splitSlash rest
    else
      match splitSlash rest with
      | [] => [[c]]
      | h :: t => (c :: h) :: t

/-- Parse a `"%m/%d/%Y"` date string to its numeric key. -/
def parseDateString (s : String) : Option Nat :=
  match splitSlash s.data with
  | [ms, ds, ys] =>
    match parseNatDigits ms, parseNatDigits ds, parseNatDigits ys with
    | some m, some d, some y =>
      if ms.length ≤ 2 ∧ ds.length ≤ 2 ∧ ys.length = 4 ∧
         1 ≤ m ∧ m ≤ 12 ∧ 1 ≤ d ∧ d ≤ daysInMonth m y then
        some (y * 10000 + m * 100 + d)
      else none
    | _, _, _ => none
  | _ => none

/-- `pd.to_datetime` with the fixed format and `errors="coerce"` on one cell. -/
def parseDate : Cell → Option Nat
  | .missing => none
  | .str s => parseDateString s

/-! ## Numeric coercion (`pd.to_numeric(..., errors="coerce")`)

Numbers are modelled as exact decimal values `mant / 10 ^ exp`; a cell
that does not parse as a decimal literal coerces to `none` (NaN), never
to an error. -/

/-- An exact decimal number: the value `mant / 10 ^ exp`. -/
structure DecNum where
  mant : Int
  exp : Nat
deriving DecidableEq, Repr, Inhabited

/-- Split a character list at the first `'.'`, if any. -/
def splitDot : List Char → List Char × Option (List Char)
  | [] => ([], none)
  | c :: rest =>
    if c = '.' then ([], some rest)
    else
      let p := splitDot rest
      (c :: p.1, p.2)

def digitsVal (l : List Char) : Nat :=
  l.foldl (fun a c => a * 10 + (c.toNat - 48)) 0

/-- Parse an optionally signed decimal literal, with surrounding whitespace
tolerated as Python float conversion does. -/
def parseRatString (s : String) : Option DecNum :=
  let l := stripWS s.data
  let sgnBody : Int × List Char :=
    match l with
    | '+' :: r => (1, r)
    | '-' :: r => (-1, r)
    | r => (1, r)
  let body := sgnBody.2
  let p := splitDot body
  match p.2 with
  | none =>
    if !p.1.isEmpty && p.1.all Char.isDigit then
      some ⟨sgnBody.1 * digitsVal p.1, 0⟩
    else none
  | some fp =>
    if (p.1.all Char.isDigit && fp.all Char.isDigit) &&
       (!p.1.isEmpty || !fp.isEmpty) then
      some ⟨sgnBody.1 * (digitsVal p.1 * 10 ^ fp.length + digitsVal fp), fp.length⟩
    else none

/-- `pd.to_numeric(cell, errors="coerce")`: NaN (`none`) on failure. -/
def toNumeric : Cell → Option DecNum
  | .missing => none
  | .str s => parseRatString s

/-! ## Header locator (`find_header_row`) -/

/-- A sheet: a list of rows of raw cells. -/
abbrev Sheet := List (List Cell)

/-- `set(_norm(h) for h in EXPECTED_HEADERS)`. -/
def expectedNorm : List String :=
  (EXPECTED_HEADERS.map normString).dedup

/-- `hits`: how many expected-schema tokens appear among a row's tokens. -/
def headerHits (tokens : List String) : Nat :=
  (expectedNorm.filter (fun h => tokens.contains h)).length

/-- The match condition of the scan loop: `"date" in row_set and hits >= 7`. -/
def rowMatches (r : List Cell) : Bool :=
  let tokens := r.map norm
  tokens.contains "date" && decide (7 ≤ headerHits tokens)

/-- Index of the first row satisfying `p`, scanning top to bottom. -/
def scanIdx (p : List Cell → Bool) : List (List Cell) → Option Nat
  | [] => none
  | r :: rest => if p r then some 0 else (scanIdx p rest).map (· + 1)

/-- The `ValueError` message raised when no header row is found. -/
def headerNotFoundMsg (filePath sheetName : String) (startRow maxRows : Nat) : String :=
  let hi : Int := (startRow : Int) + (maxRows : Int) - 1
  s!"Header row not found in '{sheetName}' of '{filePath}' (scanned rows {startRow}..{hi})."

/-- `find_header_row`: 0-based row index of the header row.  The pandas
`read_excel(skiprows=start_row, nrows=max_scan_rows)` chunk is the
corresponding slice of the sheet's rows. -/
def find_header_row (filePath sheetName : String) (sheet : Sheet)
    (startRow : Nat := HEADER_SCAN_START_ROW)
    (maxRows : Nat := HEADER_SCAN_MAX_ROWS) : Except String Nat :=
  let chunk := (sheet.drop startRow).take maxRows
  match scanIdx rowMatches chunk with
  | some i => .ok (startRow + i)
  | none => .error (headerNotFoundMsg filePath sheetName startRow maxRows)

/-! ## Sheet reader (`read_firm_sheet`) -/

/-- A cleaned firm table: non-date columns in canonical order, and rows
`(date key, values)` indexed by parsed date. -/
structure FirmTable where
  valueCols : List String
  rows : List (Nat × List (Option DecNum))
deriving DecidableEq, Repr, Inhabited

/-- The `ValueError` message when no date column survives filtering. -/
def noDateMsg (filePath sheetName : String) : String :=
  s!"No 'date' column after reading '{sheetName}' in '{filePath}'."

/-- The cell of row `r` under the column labelled `c` (labels `cols`), as
pandas name-based column access (`df[c]`) reads it; pandas pads ragged
rows with NaN, hence the missing default. -/
def cellAt (cols : List String) (r : List Cell) (c : String) : Cell :=
  r.getD (cols.indexOf c) Cell.missing

/-- The date index order on cleaned rows (`sort_index` after
`set_index("date")`). -/
def dateLe (a b : Nat × List (Option DecNum)) : Prop := a.1 ≤ b.1

instance : DecidableRel dateLe := fun a b => Nat.decLe a.1 b.1

instance : IsTotal (Nat × List (Option DecNum)) dateLe := ⟨fun a b => Nat.le_total a.1 b.1⟩

instance : IsTrans (Nat × List (Option DecNum)) dateLe := ⟨fun _ _ _ => Nat.le_trans⟩

/-- `read_firm_sheet`: read and clean one firm sheet to a date-indexed table. -/
def read_firm_sheet (filePath sheetName : String) (sheet : Sheet)
    (startRow : Nat := HEADER_SCAN_START_ROW)
    (maxRows : Nat := HEADER_SCAN_MAX_ROWS) : Except String FirmTable :=
  match find_header_row filePath sheetName sheet startRow maxRows with
  | .error e => .error e
  | .ok hdr =>
    let cols := (sheet.getD hdr []).map norm
    let keep := EXPECTED_HEADERS.filter (fun c => cols.contains c)
    if "date" ∉ keep then .error (noDateMsg filePath sheetName)
    else
      let dataRows := sheet.drop (hdr + 1)
      let rows1 := dataRows.filterMap (fun r =>
        (parseDate (cellAt cols r "date")).map (fun d => (d, r)))
      let valueCols := keep.filter (fun c => c ≠ "date")
      let rows2 := rows1.map (fun p =>
        (p.1, valueCols.map (fun c => toNumeric (cellAt cols p.2 c))))
      .ok ⟨valueCols, List.insertionSort dateLe rows2⟩

/-! ## Sheet enumerator and panel builder -/

/-- A workbook: its path and its named sheets in workbook order. -/
structure Workbook where
  file : String
  sheets : List (String × Sheet)

/-- `list_firm_sheets`: all sheet names except the metadata worksheet. -/
def list_firm_sheets (wb : Workbook) : List String :=
  (wb.sheets.map Prod.fst).filter (fun s => s ≠ WORKSHEET_NAME)

/-- Fetch a sheet by name, as `pd.read_excel(path, sheet_name=name)` does. -/
def getSheet (wb : Workbook) (name : String) : Sheet :=
  match wb.sheets.find? (fun p => p.1 == name) with
  | some p => p.2
  | none => []

/-- One row of the assembled panel. -/
structure PanelRow where
  firm : String
  date : Nat
  sector : String
  vals : List (String × Option DecNum)
deriving DecidableEq, Repr, Inhabited

/-- The sequential reading loop of `build_panel`: a failed sheet read
aborts immediately, exactly as a raised exception does. -/
def readFrames (wb : Workbook) : List String → Except String (List (String × FirmTable))
  | [] => .ok []
  | firm :: rest =>
    match read_firm_sheet wb.file firm (getSheet wb firm) with
    | .error e => .error e
    | .ok ft =>
      match readFrames wb rest with
      | .error e => .error e
      | .ok l => .ok ((firm, ft) :: l)

/-- `df_firm["firm"] = firm; df_firm["sector"] = sector; df_firm.reset_index()`:
the panel rows contributed by one firm table. -/
def frameRows (sector : String) (fr : String × FirmTable) : List PanelRow :=
  fr.2.rows.map (fun dr => ⟨fr.1, dr.1, sector, fr.2.valueCols.zip dr.2⟩)

/-- Code-point lexicographic order on character lists (Python `str` `<`). -/
def codeLt : List Char → List Char → Bool
  | [], [] => false
  | [], _ :: _ => true
  | _ :: _, [] => false
  | a :: as, b :: bs =>
    if a.toNat < b.toNat then true
    else if b.toNat < a.toNat then false
    else codeLt as bs

def strLt (a b : String) : Bool := codeLt a.data b.data

/-- `sort_index` order on the `(firm, date)` MultiIndex. -/
def panelLe (a b : PanelRow) : Bool :=
  strLt a.firm b.firm || (a.firm == b.firm && decide (a.date ≤ b.date))

/-- `sort_index` order as a (decidable) relation. -/
def panelRel (a b : PanelRow) : Prop := panelLe a b = true

instance : DecidableRel panelRel := fun a b => instDecidableEqBool (panelLe a b) true

/-- `build_panel`: concatenate all firm sheets into a `(firm, date)`-indexed
panel.  `pd.concat` of an empty frame list raises
`ValueError("No objects to concatenate")`, which the empty branch models. -/
def build_panel (wb : Workbook) (sector_label : String) : Except String (List PanelRow) :=
  match readFrames wb (list_firm_sheets wb) with
  | .error e => .error e
  | .ok frames =>
    if frames.isEmpty then .error "No objects to concatenate"
    else .ok (List.insertionSort panelRel ((frames.map (frameRows sector_label)).flatten))

/-! ## Group-wise standardizer (`add_esg_zscores`)

The Python code computes `(x - x.mean()) / x.std()` on floats per group
via `groupby(group_col)[col].transform`.  The float arithmetic is
modelled over the reals, with NaN made explicit as `none`:
`mean`/`std` skip missing values; `std` with fewer than two observations
is NaN (sample std, `ddof=1`); division by a zero std yields NaN; and a
missing input propagates to a missing output. -/

/-- A panel row as the standardizer sees it: label-valued columns
(`firm`, `sector`) and float-valued columns. -/
structure SRow where
  key : List (String × String)
  vals : List (String × Option ℝ)

/-- Value of a label column (first matching label, as pandas columns are unique). -/
def lookupStr (ps : List (String × String)) (c : String) : String :=
  match ps.find? (fun p => p.1 == c) with
  | some p => p.2
  | none => ""

/-- Value of a float column. -/
def lookupVal (ps : List (String × Option ℝ)) (c : String) : Option ℝ :=
  match ps.find? (fun p => p.1 == c) with
  | some p => p.2
  | none => none

/-- The non-missing values of column `col` within the `group_col = g` group:
the series over which pandas computes `mean`/`std` (NaNs skipped). -/
def groupVals (rows : List SRow) (gcol g col : String) : List ℝ :=
  (rows.filter (fun r => lookupStr r.key gcol == g)).filterMap
    (fun r => lookupVal r.vals col)

/-- `x.mean()` over the non-missing values. -/
noncomputable def meanR (xs : List ℝ) : ℝ := xs.sum / xs.length

/-- `x.var(ddof=1)`: sample variance, denominator `n - 1`. -/
noncomputable def varR (xs : List ℝ) : ℝ :=
  ((xs.map (fun x => (x - meanR xs) ^ 2)).sum) / ((xs.length : ℝ) - 1)

/-- `x.std(ddof=1)`: sample standard deviation. -/
noncomputable def stdR (xs : List ℝ) : ℝ := Real.sqrt (varR xs)

-- `(x - x.mean()) / x.std()` on one cell, with float-NaN semantics made
-- explicit: missing input, an undefined std (fewer than two observations),
-- or a zero std all produce NaN.
open Classical in
noncomputable def zTransform (xs : List ℝ) : Option ℝ → Option ℝ
  | none => none
  | some x =>
    if xs.length < 2 then none
    else if stdR xs = 0 then none
    else some ((x - meanR xs) / stdR xs)

/-- `df[z_col] = series`: replace the column if it exists, else append it. -/
def setVal (vals : List (String × Option ℝ)) (c : String) (v : Option ℝ) :
    List (String × Option ℝ) :=
  if vals.any (fun p => p.1 == c) then
    vals.map (fun p => if p.1 == c then (p.1, v) else p)
  else vals ++ [(c, v)]

/-- The effect of one `df[z_col] = df.groupby(group_col)[col].transform(...)`
assignment on one row. -/
noncomputable def zRowF (rows : List SRow) (gcol col : String) (r : SRow) : SRow :=
  ⟨r.key,
   setVal r.vals (col ++ "_z")
     (zTransform (groupVals rows gcol (lookupStr r.key gcol) col)
       (lookupVal r.vals col))⟩

/-- One iteration of the `for col in esg_cols` loop. -/
noncomputable def addZCol (rows : List SRow) (gcol col : String) : List SRow :=
  rows.map (zRowF rows gcol col)

/-- `add_esg_zscores`: add z-score columns for the ESG variables,
z-scoring within `group_col`. -/
noncomputable def add_esg_zscores (df : List SRow) (esg_cols : List String)
    (group_col : String := "sector") : List SRow :=
  esg_cols.foldl (fun acc col => addZCol acc group_col col) df

/-! ## Concrete witness data -/

/-- A small concrete firm sheet: a header row, one fully parseable data
row, and one data row whose date cell is unparseable. -/
def wsHeader : List Cell := EXPECTED_HEADERS.map Cell.str

def wsGood : List Cell :=
  [Cell.str "01/15/2020", Cell.str "1.5", Cell.str "2.0", Cell.str "abc",
   Cell.missing, Cell.str "3", Cell.str "4", Cell.str "5", Cell.str "6"]

def wsBad : List Cell :=
  [Cell.str "oops", Cell.str "1", Cell.str "2", Cell.str "3",
   Cell.str "4", Cell.str "5", Cell.str "6", Cell.str "7", Cell.str "8"]

def wSheetA : Sheet := [wsHeader, wsGood, wsBad]

/-- A concrete workbook whose single firm sheet has the fixed 2000-row
preamble before its header, so that the default scan window finds it. -/
def wBigSheet : Sheet := List.replicate 2000 [] ++ [wsHeader, wsGood]

def wWb : Workbook := ⟨"wb.xlsx", [("Worksheet", []), ("A", wBigSheet)]⟩

def wFrames : List (String × FirmTable) :=
  [("A", ⟨["rendite_1_quartal", "volatility 260 day calc", "return on common equity",
           "price to book ratio", "book to market ratio", "bloomberg_esg",
           "refinitiv_esg", "rendite_2_quartal"],
          [(20200115, [some ⟨15, 1⟩, some ⟨20, 1⟩, none, none,
                       some ⟨3, 0⟩, some ⟨4, 0⟩, some ⟨5, 0⟩, some ⟨6, 0⟩])]⟩)]

/-- Rows of the concrete standardizer panel: one sector group `"g"` with
raw ESG values -1, 0 and 1, giving sample variance 1. -/
def zR (x : ℝ) : SRow := ⟨[("sector", "g")], [("e", some x)]⟩

def zRows : List SRow := [zR (-1), zR 0, zR 1]


deriving instance DecidableEq for Except



/-! ## Characterization of the scan loop -/

theorem getD_mem_of_lt {α : Type _} {l : List α} {i : Nat} {d : α} (h : i < l.length) :
    l.getD i d ∈ l := by
  rw [List.getD_eq_getElem?_getD, List.getElem?_eq_getElem h]
  exact List.getElem_mem h

theorem scanIdx_eq_some (p : List Cell → Bool) (l : List (List Cell)) (i : Nat) :
    scanIdx p l = some i ↔
      i < l.length ∧ p (l.getD i []) = true ∧ ∀ j < i, p (l.getD j []) = false := by
  induction l generalizing i with
  | nil => simp [scanIdx]
  | cons r rest ih =>
    rcases hp : p r with _ | _
    · simp only [scanIdx, hp, Bool.false_eq_true, if_false, Option.map_eq_some']
      constructor
      · rintro ⟨i', hi', rfl⟩
        rcases (ih i').mp hi' with ⟨hlt, hgot, hmin⟩
        refine ⟨by simpa using Nat.succ_lt_succ hlt, by simpa [List.getD_cons_succ] using hgot, ?_⟩
        intro j hj
        rcases j with _ | j
        · simpa [List.getD_cons_zero] using hp
        · simpa [List.getD_cons_succ] using hmin j (by omega)
      · rintro ⟨hlt, hgot, hmin⟩
        rcases i with _ | i
        · rw [List.getD_cons_zero] at hgot
          rw [hp] at hgot
          exact absurd hgot (by simp)
        · refine ⟨i, (ih i).mpr ⟨by simpa using hlt,
            by simpa [List.getD_cons_succ] using hgot, ?_⟩, rfl⟩
          intro j hj
          simpa [List.getD_cons_succ] using hmin (j + 1) (by omega)
    · simp only [scanIdx, hp, if_true]
      constructor
      · rintro h
        injection h with h
        subst h
        exact ⟨Nat.succ_pos _, by simpa [List.getD_cons_zero] using hp, by omega⟩
      · rintro ⟨-, -, hmin⟩
        rcases i with _ | i
        · rfl
        · have := hmin 0 (Nat.succ_pos _)
          rw [List.getD_cons_zero, hp] at this
          exact absurd this (by simp)

theorem scanIdx_eq_none (p : List Cell → Bool) (l : List (List Cell)) :
    scanIdx p l = none ↔ ∀ r ∈ l, p r = false := by
  induction l with
  | nil => simp [scanIdx]
  | cons r rest ih =>
    rcases hp : p r with _ | _
    · simp [scanIdx, hp, Option.map_eq_none', ih]
    · simp [scanIdx, hp]

/-- The match condition of a scanned row, spelled out. -/
theorem rowMatches_iff (r : List Cell) :
    rowMatches r = true ↔ "date" ∈ r.map norm ∧ 7 ≤ headerHits (r.map norm) := by
  simp [rowMatches, List.contains, List.elem_iff]

/-- C1: `find_header_row` returns `scan_start + i` exactly for the smallest
index `i` in the scanned block whose row's normalized tokens contain
`"date"` and hit at least 7 of the expected-schema tokens; rows earlier in
the block that fail either condition are never returned. -/
theorem find_header_row_first_qualifying
    (filePath sheetName : String) (sheet : Sheet) (startRow maxRows n : Nat) :
    find_header_row filePath sheetName sheet startRow maxRows = .ok n ↔
      ∃ i, n = startRow + i ∧
        i < ((sheet.drop startRow).take maxRows).length ∧
        (let tokens := (((sheet.drop startRow).take maxRows).getD i []).map norm
         "date" ∈ tokens ∧ 7 ≤ headerHits tokens) ∧
        ∀ j < i,
          ¬ (let tokens := (((sheet.drop startRow).take maxRows).getD j []).map norm
             "date" ∈ tokens ∧ 7 ≤ headerHits tokens) := by
  unfold find_header_row
  dsimp only
  rcases hscan : scanIdx rowMatches ((sheet.drop startRow).take maxRows) with _ | i
  · dsimp only
    have hall := (scanIdx_eq_none _ _).mp hscan
    constructor
    · intro h
      exact absurd h (by simp)
    · rintro ⟨i, -, hlt, hmatch, -⟩
      have hf := hall (((sheet.drop startRow).take maxRows).getD i []) (getD_mem_of_lt hlt)
      rw [← rowMatches_iff, hf] at hmatch
      exact absurd hmatch (by simp)
  · dsimp only
    rcases (scanIdx_eq_some _ _ _).mp hscan with ⟨hlt, hgot, hmin⟩
    simp only [Except.ok.injEq]
    constructor
    · rintro rfl
      refine ⟨i, rfl, hlt, (rowMatches_iff _).mp hgot, ?_⟩
      intro j hj
      rw [← rowMatches_iff, hmin j hj]
      simp
    · rintro ⟨i', rfl, hlt', hmatch', hmin'⟩
      rcases Nat.lt_trichotomy i i' with h | h | h
      · exact absurd ((rowMatches_iff _).mp hgot) (hmin' i h)
      · rw [h]
      · rw [← rowMatches_iff, hmin i' h] at hmatch'
        exact absurd hmatch' (by simp)

/-- C6: `find_header_row` fails if and only if no row of the scanned block
(the `max_scan_rows` rows starting at `start_row`) satisfies the match
condition, and the error message identifies the sheet, the file, and the
scanned range `start_row .. start_row + max_scan_rows - 1`. -/
theorem find_header_row_error_iff
    (filePath sheetName : String) (sheet : Sheet) (startRow maxRows : Nat) (e : String) :
    find_header_row filePath sheetName sheet startRow maxRows = .error e ↔
      (∀ r ∈ (sheet.drop startRow).take maxRows,
        ¬ ("date" ∈ r.map norm ∧ 7 ≤ headerHits (r.map norm))) ∧
      e = headerNotFoundMsg filePath sheetName startRow maxRows := by
  unfold find_header_row
  dsimp only
  rcases hscan : scanIdx rowMatches ((sheet.drop startRow).take maxRows) with _ | i
  · dsimp only
    have hall := (scanIdx_eq_none _ _).mp hscan
    simp only [Except.error.injEq]
    constructor
    · rintro rfl
      refine ⟨?_, rfl⟩
      intro r hr
      rw [← rowMatches_iff, hall r hr]
      simp
    · rintro ⟨-, rfl⟩
      rfl
  · dsimp only
    rcases (scanIdx_eq_some _ _ _).mp hscan with ⟨hlt, hgot, -⟩
    constructor
    · intro h
      exact absurd h (by simp)
    · rintro ⟨hnone, -⟩
      have hm := hnone (((sheet.drop startRow).take maxRows).getD i []) (getD_mem_of_lt hlt)
      rw [← rowMatches_iff, hgot] at hm
      exact absurd rfl hm



/-! ## Facts about the normalizer -/

theorem charOfNat_toNat {n : Nat} (h1 : 97 ≤ n) (h2 : n ≤ 122) : (Char.ofNat n).toNat = n := by
  have hv : n.isValidChar := Or.inl (by omega)
  simp only [Char.ofNat, hv, reduceDIte, Char.ofNatAux, Char.toNat]
  rfl

theorem toLower_idem (c : Char) : Char.toLower (Char.toLower c) = Char.toLower c := by
  simp only [Char.toLower]
  by_cases h : c.toNat ≥ 65 ∧ c.toNat ≤ 90
  · rw [if_pos h]
    have h2 : (Char.ofNat (c.toNat + 32)).toNat = c.toNat + 32 :=
      charOfNat_toNat (by omega) (by omega)
    rw [h2, if_neg (by omega)]
  · rw [if_neg h, if_neg h]

theorem isWScode_false {n : Nat} (h : 33 ≤ n) : isWScode n = false := by
  simp only [isWScode, Bool.or_eq_false_iff, beq_eq_false_iff_ne, ne_eq]
  omega

theorem isWS_toLower (c : Char) : isWS (Char.toLower c) = isWS c := by
  simp only [Char.toLower, isWS]
  by_cases h : c.toNat ≥ 65 ∧ c.toNat ≤ 90
  · rw [if_pos h, charOfNat_toNat (by omega) (by omega),
      isWScode_false (by omega), isWScode_false (by omega)]
  · rw [if_neg h]

theorem isWS_replNL (c : Char) : isWS (replNL c) = isWS c := by
  unfold replNL
  by_cases h : c = '\n'
  · rw [if_pos h, h]
    decide
  · rw [if_neg h]

theorem toLower_fix_replNL {c : Char} (h : Char.toLower c = c) :
    Char.toLower (replNL c) = replNL c := by
  unfold replNL
  by_cases hc : c = '\n'
  · rw [if_pos hc]
    rfl
  · rw [if_neg hc]
    exact h

theorem collapseWS_mem {c : Char} : ∀ {f : Bool} {l : List Char},
    c ∈ collapseWS f l → c = ' ' ∨ c ∈ l := by
  intro f l
  induction l generalizing f with
  | nil => simp [collapseWS]
  | cons a rest ih =>
    intro hc
    rcases ha : isWS a with _ | _ <;> rw [collapseWS, ha] at hc
    · simp only [Bool.false_eq_true, if_false, List.mem_cons] at hc
      rcases hc with hc | hc
      · exact Or.inr (by simp [hc])
      · rcases ih hc with h | h
        · exact Or.inl h
        · exact Or.inr (List.mem_cons_of_mem _ h)
    · simp only [if_true] at hc
      rcases f with _ | _
      · simp only [Bool.false_eq_true, if_false, List.mem_cons] at hc
        rcases hc with hc | hc
        · exact Or.inl hc
        · rcases ih hc with h | h
          · exact Or.inl h
          · exact Or.inr (List.mem_cons_of_mem _ h)
      · simp only [if_true] at hc
        rcases ih hc with h | h
        · exact Or.inl h
        · exact Or.inr (List.mem_cons_of_mem _ h)

theorem collapseWS_ws_eq_space {c : Char} : ∀ {f : Bool} {l : List Char},
    c ∈ collapseWS f l → isWS c = true → c = ' ' := by
  intro f l
  induction l generalizing f with
  | nil => simp [collapseWS]
  | cons a rest ih =>
    intro hc hws
    rcases ha : isWS a with _ | _ <;> rw [collapseWS, ha] at hc
    · simp only [Bool.false_eq_true, if_false, List.mem_cons] at hc
      rcases hc with hc | hc
      · subst hc
        rw [ha] at hws
        exact absurd hws (by simp)
      · exact ih hc hws
    · simp only [if_true] at hc
      rcases f with _ | _
      · simp only [Bool.false_eq_true, if_false, List.mem_cons] at hc
        rcases hc with hc | hc
        · exact hc
        · exact ih hc hws
      · simp only [if_true] at hc
        exact ih hc hws

theorem collapseWS_chain : ∀ {l : List Char} (f : Bool),
    List.Chain' noWWpair (collapseWS f l) ∧
      (f = true → headNotWS (collapseWS f l)) := by
  intro l
  induction l with
  | nil => simp [collapseWS, headNotWS]
  | cons a rest ih =>
    intro f
    rcases ha : isWS a with _ | _
    · constructor
      · rw [collapseWS, ha]
        simp only [Bool.false_eq_true, if_false]
        rw [List.chain'_cons']
        refine ⟨?_, (ih false).1⟩
        intro b hb
        exact fun hand => by rw [ha] at hand; simp at hand
      · intro _
        rw [collapseWS, ha]
        simp only [Bool.false_eq_true, if_false]
        intro c hc
        simp only [List.head?_cons, Option.mem_def, Option.some.injEq] at hc
        subst hc
        exact ha
    · constructor
      · rw [collapseWS, ha]
        simp only [if_true]
        rcases f with _ | _
        · simp only [Bool.false_eq_true, if_false]
          rw [List.chain'_cons']
          refine ⟨?_, (ih true).1⟩
          intro b hb
          have hhead := (ih true).2 rfl
          have : isWS b = false := hhead b hb
          exact fun hand => by rw [this] at hand; simp at hand
        · simp only [if_true]
          exact (ih true).1
      · intro hf
        rw [collapseWS, ha]
        simp only [if_true]
        rcases f with _ | _
        · exact absurd hf (by simp)
        · simp only [if_true]
          exact (ih true).2 rfl

theorem collapseWS_fix : ∀ {l : List Char},
    (∀ c ∈ l, isWS c = true → c = ' ') →
    List.Chain' noWWpair l →
    ∀ {f : Bool}, (f = true → headNotWS l) → collapseWS f l = l := by
  intro l
  induction l with
  | nil => intro _ _ f _; cases f <;> rfl
  | cons a rest ih =>
    intro hsp hch f hhead
    rcases ha : isWS a with _ | _
    · rw [collapseWS, ha]
      simp only [Bool.false_eq_true, if_false]
      exact congrArg (List.cons a) (ih (fun c hc => hsp c (List.mem_cons_of_mem _ hc))
        (List.chain'_cons'.mp hch).2 (fun hf => absurd hf (by simp)))
    · rcases f with _ | _
      · rw [collapseWS, ha]
        simp only [if_true, Bool.false_eq_true, if_false]
        have haeq : a = ' ' := hsp a (List.mem_cons_self a rest) ha
        rw [← haeq]
        refine congrArg _ (ih (fun c hc => hsp c (List.mem_cons_of_mem _ hc))
          (List.chain'_cons'.mp hch).2 ?_)
        intro hf
        intro c hc
        have hrel := (List.chain'_cons'.mp hch).1
        rcases rest with _ | ⟨b, rest'⟩
        · simp at hc
        · simp only [List.head?_cons, Option.mem_def, Option.some.injEq] at hc
          subst hc
          have hnp := hrel b (by simp)
          rcases hb : isWS b with _ | _
          · rfl
          · exact absurd ⟨ha, hb⟩ hnp
      · have := hhead rfl a (by simp)
        rw [ha] at this
        exact absurd this (by simp)


theorem stripWS_sublist (l : List Char) : (stripWS l).Sublist l :=
  (( List.rdropWhile_prefix isWS (List.dropWhile isWS l)).sublist).trans
    (List.dropWhile_sublist isWS)

theorem stripWS_mem {c : Char} {l : List Char} (h : c ∈ stripWS l) : c ∈ l :=
  List.Sublist.mem h (stripWS_sublist l)

theorem stripWS_idem (l : List Char) : stripWS (stripWS l) = stripWS l := by
  unfold stripWS
  have hw : List.dropWhile isWS (List.dropWhile isWS l) = List.dropWhile isWS l :=
    List.dropWhile_idempotent isWS l
  have hpre := List.rdropWhile_prefix isWS (List.dropWhile isWS l)
  have hfix : List.dropWhile isWS (List.rdropWhile isWS (List.dropWhile isWS l)) =
      List.rdropWhile isWS (List.dropWhile isWS l) := by
    rw [List.dropWhile_eq_self_iff]
    intro h0
    have hlen : 0 < (List.dropWhile isWS l).length :=
      Nat.lt_of_lt_of_le h0 (List.IsPrefix.length_le hpre)
    have hget := List.IsPrefix.getElem hpre h0
    rw [List.get_eq_getElem, hget]
    have := (List.dropWhile_eq_self_iff).mp hw hlen
    rw [List.get_eq_getElem] at this
    exact this
  rw [hfix, List.rdropWhile_idempotent]

theorem stripWS_chain {l : List Char} (h : List.Chain' noWWpair l) :
    List.Chain' noWWpair (stripWS l) :=
   List.Chain'.prefix ( List.Chain'.suffix h (List.dropWhile_suffix isWS))
     ( List.rdropWhile_prefix isWS (List.dropWhile isWS l))

theorem headNotWS_of_stripWS_fix {l : List Char} (h : stripWS l = l) : headNotWS l := by
  have hdw : List.dropWhile isWS l = l := by
    have hsub : (List.dropWhile isWS l).Sublist l := List.dropWhile_sublist isWS
    refine List.Sublist.eq_of_length hsub (Nat.le_antisymm (hsub.length_le) ?_)
    have h1 : (stripWS l).length ≤ (List.dropWhile isWS l).length :=
      List.IsPrefix.length_le ( List.rdropWhile_prefix isWS (List.dropWhile isWS l))
    calc l.length = (stripWS l).length := by rw [h]
    _ ≤ (List.dropWhile isWS l).length := h1
  intro c hc
  rcases l with _ | ⟨a, rest⟩
  · simp at hc
  · simp only [List.head?_cons, Option.mem_def, Option.some.injEq] at hc
    subst hc
    have := (List.dropWhile_eq_self_iff).mp hdw (by simp)
    simp only [List.get_eq_getElem, List.getElem_cons_zero] at this
    simpa using this

theorem normChars_good (l : List Char) : goodNorm (normChars l) := by
  unfold normChars goodNorm
  refine ⟨stripWS_idem _, ?_, ?_, ?_⟩
  · intro c hc
    have hc4 := stripWS_mem hc
    rcases List.mem_map.mp hc4 with ⟨d, hd3, rfl⟩
    rcases collapseWS_mem hd3 with hd | hd2
    · subst hd
      decide
    · rcases List.mem_map.mp hd2 with ⟨e, he, rfl⟩
      exact toLower_fix_replNL (toLower_idem e)
  · intro c hc hws
    have hc4 := stripWS_mem hc
    rcases List.mem_map.mp hc4 with ⟨d, hd3, rfl⟩
    rw [isWS_replNL] at hws
    have hd := collapseWS_ws_eq_space hd3 hws
    subst hd
    decide
  · refine stripWS_chain ?_
    rw [List.chain'_map]
    refine List.Chain'.imp ?_ (collapseWS_chain false).1
    intro a b hab
    rw [noWWpair, isWS_replNL, isWS_replNL]
    exact hab

theorem normChars_fix {l : List Char} (h : goodNorm l) : normChars l = l := by
  rcases h with ⟨h1, h2, h3, h4⟩
  unfold normChars
  rw [h1]
  have hmap1 : List.map Char.toLower l = l := by
    rw [List.map_congr_left h2]
    exact List.map_id' l
  rw [hmap1]
  have hcoll : collapseWS false l = l :=
    collapseWS_fix h3 h4 (fun hf => absurd hf (by simp))
  rw [hcoll]
  have hrepl : ∀ c ∈ l, replNL c = c := by
    intro c hc
    unfold replNL
    by_cases hn : c = '\n'
    · subst hn
      have := h3 '\n' hc (by decide)
      exact absurd this (by decide)
    · rw [if_neg hn]
  have hmap2 : List.map replNL l = l := by
    rw [List.map_congr_left hrepl]
    exact List.map_id' l
  rw [hmap2, h1]

theorem normChars_idem (l : List Char) : normChars (normChars l) = normChars l :=
  normChars_fix (normChars_good l)

/-- C7: `_norm` is total and idempotent: renormalizing any normalized cell
returns it unchanged; missing/NaN-like input yields the empty string, as
does empty input; and the case/whitespace variants of the token `date`
all normalize to `"date"`. -/
theorem norm_total_idempotent :
    (∀ c : Cell, norm (Cell.str (norm c)) = norm c) ∧
    norm Cell.missing = "" ∧ normString "" = "" ∧
    normString " Date \n" = "date" ∧ normString "DATE" = "date" ∧
    normString "date" = "date" := by
  refine ⟨?_, rfl, by decide, by decide, by decide, by decide⟩
  intro c
  cases c with
  | missing => decide
  | str s =>
    show normString (normString s) = normString s
    unfold normString
    exact congrArg String.mk (normChars_idem s.data)




theorem length_filterMap_isSome {α β : Type _} (f : α → Option β) (l : List α) :
    (l.filterMap f).length = (l.filter (fun x => (f x).isSome)).length := by
  induction l with
  | nil => rfl
  | cons a l ih =>
    rcases hf : f a with _ | b <;>
      simp [List.filterMap_cons, List.filter_cons, hf, ih]

/-- C2: given a located header, `read_firm_sheet` never fails on cell
contents: it returns a table that drops exactly the data rows whose date
cell does not parse, and in every retained row coerces each non-date cell
through `toNumeric`, which maps unparseable values to missing instead of
dropping the row or raising. -/
theorem read_firm_sheet_drops_exactly_bad_dates
    (filePath sheetName : String) (sheet : Sheet) (startRow maxRows hdr : Nat)
    (hfind : find_header_row filePath sheetName sheet startRow maxRows = .ok hdr)
    (hdate : "date" ∈ EXPECTED_HEADERS.filter
      (fun c => (((sheet.getD hdr []).map norm)).contains c)) :
    ∃ t, read_firm_sheet filePath sheetName sheet startRow maxRows = .ok t ∧
      t.rows.length = ((sheet.drop (hdr + 1)).filter
        (fun r => (parseDate (cellAt ((sheet.getD hdr []).map norm) r "date")).isSome)).length ∧
      t.rows.Perm ((sheet.drop (hdr + 1)).filterMap (fun r =>
        (parseDate (cellAt ((sheet.getD hdr []).map norm) r "date")).map (fun d =>
          (d, t.valueCols.map (fun c =>
            toNumeric (cellAt ((sheet.getD hdr []).map norm) r c)))))) := by
  unfold read_firm_sheet
  rw [hfind]
  dsimp only
  rw [if_neg (fun h => h hdate)]
  refine ⟨_, rfl, ?_, ?_⟩
  · dsimp only
    rw [(List.perm_insertionSort dateLe _).length_eq, List.length_map,
      length_filterMap_isSome]
    congr 1
    refine List.filter_congr ?_
    intro r _
    rcases parseDate (cellAt ((sheet.getD hdr []).map norm) r "date") with _ | d <;> rfl
  · dsimp only
    refine (List.perm_insertionSort dateLe _).trans (List.Perm.of_eq ?_)
    rw [List.map_filterMap]
    refine List.filterMap_congr ?_
    intro r _
    rcases parseDate (cellAt ((sheet.getD hdr []).map norm) r "date") with _ | d <;> rfl

/-- C8: given a located header, `read_firm_sheet` keeps exactly the columns
whose normalized label is in the expected schema, in the expected schema's
canonical order (the date column becoming the index); it fails with the
schema error precisely when no `"date"` column survives that filtering; and
on success the rows are sorted ascending by parsed date. -/
theorem read_firm_sheet_schema
    (filePath sheetName : String) (sheet : Sheet) (startRow maxRows hdr : Nat)
    (hfind : find_header_row filePath sheetName sheet startRow maxRows = .ok hdr) :
    (read_firm_sheet filePath sheetName sheet startRow maxRows =
        .error (noDateMsg filePath sheetName) ↔
      "date" ∉ EXPECTED_HEADERS.filter
        (fun c => (((sheet.getD hdr []).map norm)).contains c)) ∧
    ∀ t, read_firm_sheet filePath sheetName sheet startRow maxRows = .ok t →
      t.valueCols = (EXPECTED_HEADERS.filter
          (fun c => (((sheet.getD hdr []).map norm)).contains c)).filter
            (fun c => c ≠ "date") ∧
      List.Chain' (fun a b => a.1 ≤ b.1) t.rows := by
  unfold read_firm_sheet
  rw [hfind]
  dsimp only
  by_cases hd : "date" ∈ EXPECTED_HEADERS.filter
      (fun c => (((sheet.getD hdr []).map norm)).contains c)
  · rw [if_neg (fun h => h hd)]
    constructor
    · constructor
      · intro h
        exact absurd h (by simp)
      · intro h
        exact absurd hd h
    · rintro t ht
      injection ht with ht
      subst ht
      refine ⟨rfl, ?_⟩
      have hs := List.sorted_insertionSort dateLe
        ((sheet.drop (hdr + 1)).filterMap (fun r =>
          (parseDate (cellAt ((sheet.getD hdr []).map norm) r "date")).map
            (fun d => (d, r))) |>.map (fun p =>
              (p.1, ((EXPECTED_HEADERS.filter (fun c =>
                (((sheet.getD hdr []).map norm)).contains c)).filter
                  (fun c => c ≠ "date")).map (fun c =>
                    toNumeric (cellAt ((sheet.getD hdr []).map norm) p.2 c)))))
      exact List.Pairwise.chain' hs
  · rw [if_pos hd]
    refine ⟨⟨fun _ => hd, fun _ => rfl⟩, ?_⟩
    intro t ht
    exact absurd ht (by simp)


theorem read_firm_sheet_drops_witness :
    find_header_row "f.xlsx" "A" wSheetA 0 5 = .ok 0 ∧
    "date" ∈ EXPECTED_HEADERS.filter
      (fun c => (((wSheetA.getD 0 []).map norm)).contains c) ∧
    ∃ t, read_firm_sheet "f.xlsx" "A" wSheetA 0 5 = .ok t ∧
      t.rows.length = ((wSheetA.drop (0 + 1)).filter
        (fun r => (parseDate (cellAt ((wSheetA.getD 0 []).map norm) r "date")).isSome)).length ∧
      t.rows.Perm ((wSheetA.drop (0 + 1)).filterMap (fun r =>
        (parseDate (cellAt ((wSheetA.getD 0 []).map norm) r "date")).map (fun d =>
          (d, t.valueCols.map (fun c =>
            toNumeric (cellAt ((wSheetA.getD 0 []).map norm) r c)))))) :=
  ⟨rfl, by decide,
   read_firm_sheet_drops_exactly_bad_dates "f.xlsx" "A" wSheetA 0 5 0 rfl (by decide)⟩

theorem read_firm_sheet_schema_witness :
    find_header_row "f.xlsx" "A" wSheetA 0 5 = .ok 0 ∧
    ((read_firm_sheet "f.xlsx" "A" wSheetA 0 5 =
        .error (noDateMsg "f.xlsx" "A") ↔
      "date" ∉ EXPECTED_HEADERS.filter
        (fun c => (((wSheetA.getD 0 []).map norm)).contains c)) ∧
    ∀ t, read_firm_sheet "f.xlsx" "A" wSheetA 0 5 = .ok t →
      t.valueCols = (EXPECTED_HEADERS.filter
          (fun c => (((wSheetA.getD 0 []).map norm)).contains c)).filter
            (fun c => c ≠ "date") ∧
      List.Chain' (fun a b => a.1 ≤ b.1) t.rows) :=
  ⟨rfl, read_firm_sheet_schema "f.xlsx" "A" wSheetA 0 5 0 rfl⟩




/-! ## The panel order -/

theorem charToNat_inj {a b : Char} (h : a.toNat = b.toNat) : a = b :=
  Char.ext (UInt32.ext h)

theorem codeLt_false_asymm : ∀ {a b : List Char},
    codeLt a b = false → codeLt b a = false → a = b := by
  intro a
  induction a with
  | nil =>
    intro b h1 h2
    rcases b with _ | ⟨c, cs⟩
    · rfl
    · rw [codeLt] at h1
      exact absurd h1 (by simp)
  | cons x xs ih =>
    intro b h1 h2
    rcases b with _ | ⟨c, cs⟩
    · rw [codeLt] at h2
      exact absurd h2 (by simp)
    · rw [codeLt] at h1 h2
      by_cases hxc : x.toNat < c.toNat
      · rw [if_pos hxc] at h1
        exact absurd h1 (by simp)
      · rw [if_neg hxc] at h1
        by_cases hcx : c.toNat < x.toNat
        · rw [if_pos hcx] at h2
          exact absurd h2 (by simp)
        · rw [if_neg hcx] at h1
          rw [if_neg hcx, if_neg hxc] at h2
          have hx : x = c := charToNat_inj (by omega)
          rw [hx, ih h1 h2]

theorem codeLt_trans : ∀ {a b c : List Char},
    codeLt a b = true → codeLt b c = true → codeLt a c = true := by
  intro a
  induction a with
  | nil =>
    intro b c h1 h2
    rcases b with _ | ⟨y, ys⟩
    · exact absurd h1 (by simp [codeLt])
    · rcases c with _ | ⟨z, zs⟩
      · exact absurd h2 (by simp [codeLt])
      · rw [codeLt]
  | cons x xs ih =>
    intro b c h1 h2
    rcases b with _ | ⟨y, ys⟩
    · exact absurd h1 (by simp [codeLt])
    · rcases c with _ | ⟨z, zs⟩
      · exact absurd h2 (by simp [codeLt])
      · rw [codeLt] at h1 h2 ⊢
        by_cases hxy : x.toNat < y.toNat
        · by_cases hyz : y.toNat < z.toNat
          · rw [if_pos (by omega)]
          · rw [if_neg hyz] at h2
            by_cases hzy : z.toNat < y.toNat
            · rw [if_pos hzy] at h2
              exact absurd h2 (by simp)
            · rw [if_pos (by omega)]
        · rw [if_neg hxy] at h1
          by_cases hyx : y.toNat < x.toNat
          · rw [if_pos hyx] at h1
            exact absurd h1 (by simp)
          · rw [if_neg hyx] at h1
            by_cases hyz : y.toNat < z.toNat
            · rw [if_pos (by omega)]
            · rw [if_neg hyz] at h2
              by_cases hzy : z.toNat < y.toNat
              · rw [if_pos hzy] at h2
                exact absurd h2 (by simp)
              · rw [if_neg hzy] at h2
                rw [if_neg (by omega), if_neg (by omega)]
                exact ih h1 h2

theorem strLt_false_asymm {a b : String} (h1 : strLt a b = false)
    (h2 : strLt b a = false) : a = b :=
  String.ext (codeLt_false_asymm h1 h2)

instance : IsTotal PanelRow panelRel := by
  constructor
  intro a b
  unfold panelRel panelLe
  rcases hab : strLt a.firm b.firm with _ | _
  · rcases hba : strLt b.firm a.firm with _ | _
    · have heq : a.firm = b.firm := strLt_false_asymm hab hba
      rcases Nat.le_total a.date b.date with h | h
      · left
        simp [heq, h]
      · right
        simp [heq.symm, h]
    · right
      simp
  · left
    simp

instance : IsTrans PanelRow panelRel := by
  constructor
  intro a b c hab hbc
  unfold panelRel panelLe at hab hbc ⊢
  simp only [Bool.or_eq_true, Bool.and_eq_true, beq_iff_eq, decide_eq_true_eq] at hab hbc ⊢
  rcases hab with hab | ⟨hab, habd⟩
  · rcases hbc with hbc | ⟨hbc, hbcd⟩
    · exact Or.inl (codeLt_trans hab hbc)
    · rw [hbc] at hab
      exact Or.inl hab
  · rcases hbc with hbc | ⟨hbc, hbcd⟩
    · rw [hab]
      exact Or.inl hbc
    · exact Or.inr ⟨hab.trans hbc, habd.trans hbcd⟩

/-! ## Fail-fast and union facts of the panel builder -/

theorem readFrames_error_of_mem {wb : Workbook} : ∀ {firms : List String},
    (∃ f ∈ firms, ∃ e, read_firm_sheet wb.file f (getSheet wb f) = .error e) →
    ∃ e, readFrames wb firms = .error e := by
  intro firms
  induction firms with
  | nil => rintro ⟨f, hf, -⟩; exact absurd hf (by simp)
  | cons g rest ih =>
    rintro ⟨f, hf, e, he⟩
    rcases hr : read_firm_sheet wb.file g (getSheet wb g) with e' | ft
    · exact ⟨e', by rw [readFrames, hr]⟩
    · rcases List.mem_cons.mp hf with rfl | hf'
      · rw [hr] at he
        exact absurd he (by simp)
      · rcases ih ⟨f, hf', e, he⟩ with ⟨e'', he''⟩
        exact ⟨e'', by rw [readFrames, hr, he'']⟩

/-- C4: `build_panel` is fail-fast: if reading any one of the firm sheets
fails, the whole call fails, and no partial panel is ever produced. -/
theorem build_panel_fail_fast (wb : Workbook) (sector_label : String)
    (h : ∃ f ∈ list_firm_sheets wb, ∃ e,
      read_firm_sheet wb.file f (getSheet wb f) = .error e) :
    (∃ e, build_panel wb sector_label = .error e) ∧
    ∀ panel, build_panel wb sector_label ≠ .ok panel := by
  rcases readFrames_error_of_mem h with ⟨e, he⟩
  constructor
  · exact ⟨e, by rw [build_panel, he]⟩
  · intro panel hp
    rw [build_panel, he] at hp
    exact absurd hp (by simp)

theorem build_panel_fail_fast_witness :
    (∃ f ∈ list_firm_sheets ⟨"wb.xlsx", [("Worksheet", [[]]), ("A", [])]⟩, ∃ e,
      read_firm_sheet "wb.xlsx" f
        (getSheet ⟨"wb.xlsx", [("Worksheet", [[]]), ("A", [])]⟩ f) = .error e) ∧
    (∃ e, build_panel ⟨"wb.xlsx", [("Worksheet", [[]]), ("A", [])]⟩ "banks" = .error e) ∧
    ∀ panel, build_panel ⟨"wb.xlsx", [("Worksheet", [[]]), ("A", [])]⟩ "banks" ≠ .ok panel := by
  have h : ∃ f ∈ list_firm_sheets ⟨"wb.xlsx", [("Worksheet", [[]]), ("A", [])]⟩, ∃ e,
      read_firm_sheet "wb.xlsx" f
        (getSheet ⟨"wb.xlsx", [("Worksheet", [[]]), ("A", [])]⟩ f) = .error e :=
    ⟨"A", by decide,
     headerNotFoundMsg "wb.xlsx" "A" HEADER_SCAN_START_ROW HEADER_SCAN_MAX_ROWS, rfl⟩
  exact ⟨h, build_panel_fail_fast _ "banks" h⟩


theorem readFrames_ok_spec {wb : Workbook} : ∀ {firms : List String}
    {frames : List (String × FirmTable)},
    readFrames wb firms = .ok frames →
    frames.map Prod.fst = firms ∧
      ∀ fr ∈ frames, read_firm_sheet wb.file fr.1 (getSheet wb fr.1) = .ok fr.2 := by
  intro firms
  induction firms with
  | nil =>
    intro frames h
    rw [readFrames] at h
    injection h with h
    subst h
    exact ⟨rfl, by simp⟩
  | cons g rest ih =>
    intro frames h
    rw [readFrames] at h
    rcases hr : read_firm_sheet wb.file g (getSheet wb g) with e | ft <;> rw [hr] at h
    · exact absurd h (by simp)
    · rcases hrest : readFrames wb rest with e | l <;> rw [hrest] at h
      · exact absurd h (by simp)
      · injection h with h
        subst h
        rcases ih hrest with ⟨hnames, hall⟩
        refine ⟨by simp [hnames], ?_⟩
        intro fr hfr
        rcases List.mem_cons.mp hfr with rfl | hfr'
        · exact hr
        · exact hall fr hfr'

/-- C5: when every firm sheet reads successfully and there is at least one,
`build_panel` returns a panel that is a permutation of the union of the
firm tables' rows (so its row count is the sum of theirs), in which every
row carries the caller-supplied sector label and the firm name of the
sheet it came from, sorted ascending by the composite key `(firm, date)`. -/
theorem build_panel_union_sorted (wb : Workbook) (sector_label : String)
    (frames : List (String × FirmTable))
    (hread : readFrames wb (list_firm_sheets wb) = .ok frames)
    (hne : frames ≠ []) :
    ∃ panel, build_panel wb sector_label = .ok panel ∧
      panel.length = (frames.map (fun fr => fr.2.rows.length)).sum ∧
      panel.Perm ((frames.map (frameRows sector_label)).flatten) ∧
      frames.map Prod.fst = list_firm_sheets wb ∧
      (∀ r ∈ panel, r.sector = sector_label ∧ r.firm ∈ list_firm_sheets wb) ∧
      List.Chain' panelRel panel := by
  have hperm : (List.insertionSort panelRel
      ((frames.map (frameRows sector_label)).flatten)).Perm
        ((frames.map (frameRows sector_label)).flatten) :=
    List.perm_insertionSort panelRel _
  have hnames := (readFrames_ok_spec hread).1
  refine ⟨List.insertionSort panelRel ((frames.map (frameRows sector_label)).flatten),
    ?_, ?_, hperm, hnames, ?_, ?_⟩
  · rw [build_panel, hread]
    dsimp only
    rw [if_neg (by simpa [List.isEmpty_iff] using hne)]
  · rw [hperm.length_eq, List.length_flatten, List.map_map]
    congr 1
    refine List.map_congr_left ?_
    intro fr _
    simp [frameRows]
  · intro r hr
    have hr' := hperm.mem_iff.mp hr
    rcases List.mem_flatten.mp hr' with ⟨rows, hrows, hrmem⟩
    rcases List.mem_map.mp hrows with ⟨fr, hfr, rfl⟩
    rcases List.mem_map.mp hrmem with ⟨dr, -, rfl⟩
    refine ⟨rfl, ?_⟩
    rw [← hnames]
    exact List.mem_map.mpr ⟨fr, hfr, rfl⟩
  · exact List.Pairwise.chain' (List.sorted_insertionSort panelRel _)

/-- C10: when every sheet of the workbook is the excluded metadata sheet,
`build_panel` does not return an empty panel: the empty concatenation
fails, as `pd.concat` of no frames raises `ValueError`. -/
theorem build_panel_all_excluded (wb : Workbook) (sector_label : String)
    (h : ∀ p ∈ wb.sheets, p.1 = WORKSHEET_NAME) :
    build_panel wb sector_label = .error "No objects to concatenate" := by
  have hfs : list_firm_sheets wb = [] := by
    unfold list_firm_sheets
    rw [List.filter_eq_nil_iff]
    intro s hs
    rcases List.mem_map.mp hs with ⟨p, hp, rfl⟩
    simpa using h p hp
  rw [build_panel, hfs]
  rfl

theorem build_panel_all_excluded_witness :
    (∀ p ∈ (⟨"w.xlsx", [("Worksheet", []), ("Worksheet", [[]])]⟩ : Workbook).sheets,
      p.1 = WORKSHEET_NAME) ∧
    build_panel ⟨"w.xlsx", [("Worksheet", []), ("Worksheet", [[]])]⟩ "banks" =
      .error "No objects to concatenate" :=
  ⟨by decide, build_panel_all_excluded _ "banks" (by decide)⟩


set_option maxRecDepth 100000 in
theorem build_panel_union_witness :
    readFrames wWb (list_firm_sheets wWb) = .ok wFrames ∧
    wFrames ≠ [] ∧
    ∃ panel, build_panel wWb "banks" = .ok panel ∧
      panel.length = (wFrames.map (fun fr => fr.2.rows.length)).sum ∧
      panel.Perm ((wFrames.map (frameRows "banks")).flatten) ∧
      wFrames.map Prod.fst = list_firm_sheets wWb ∧
      (∀ r ∈ panel, r.sector = "banks" ∧ r.firm ∈ list_firm_sheets wWb) ∧
      List.Chain' panelRel panel :=
  ⟨by decide, by decide,
   build_panel_union_sorted wWb "banks" wFrames (by decide) (by decide)⟩




/-! ## Facts about the standardizer -/

theorem string_append_cancel {a b c : String} (h : a ++ c = b ++ c) : a = b := by
  apply String.ext
  have hd : a.data ++ c.data = b.data ++ c.data := by
    rw [← String.data_append, ← String.data_append, h]
  exact List.append_cancel_right hd

theorem find?_setVal_map_self (vals : List (String × Option ℝ)) (c : String) (v : Option ℝ)
    (hany : vals.any (fun p => p.1 == c) = true) :
    List.find? (fun p => p.1 == c)
      (vals.map (fun p => if (p.1 == c) = true then (p.1, v) else p)) = some (c, v) := by
  induction vals with
  | nil => exact absurd hany (by simp)
  | cons p ps ih =>
    by_cases hp : (p.1 == c) = true
    · have hpc : p.1 = c := eq_of_beq hp
      simp [List.find?_cons, hp, hpc]
    · simp only [List.any_cons] at hany
      rw [Bool.or_eq_true] at hany
      rcases hany with h | h
      · exact absurd h hp
      · simp only [List.map_cons, if_neg hp, List.find?_cons]
        rw [Bool.not_eq_true] at hp
        rw [hp]
        exact ih h

theorem find?_setVal_map_ne (vals : List (String × Option ℝ)) (c d : String) (v : Option ℝ)
    (hne : d ≠ c) :
    List.find? (fun p => p.1 == d)
      (vals.map (fun p => if (p.1 == c) = true then (p.1, v) else p)) =
      List.find? (fun p => p.1 == d) vals := by
  induction vals with
  | nil => rfl
  | cons p ps ih =>
    by_cases hp : (p.1 == c) = true
    · have hpc : p.1 = c := eq_of_beq hp
      have hpd : (p.1 == d) = false := by
        rw [beq_eq_false_iff_ne, hpc]
        exact fun h => hne h.symm
      simp only [List.map_cons, if_pos hp, List.find?_cons, hpd]
      exact ih
    · simp only [List.map_cons, if_neg hp, List.find?_cons]
      rcases hpd : (p.1 == d) with _ | _
      · exact ih
      · rfl

theorem lookupVal_setVal_self (vals : List (String × Option ℝ)) (c : String) (v : Option ℝ) :
    lookupVal (setVal vals c v) c = v := by
  unfold setVal
  rcases hany : vals.any (fun p => p.1 == c) with _ | _
  · simp only [Bool.false_eq_true, if_false]
    unfold lookupVal
    rw [List.find?_append, List.find?_eq_none.mpr (List.any_eq_false.mp hany)]
    simp
  · simp only [if_true]
    unfold lookupVal
    rw [find?_setVal_map_self vals c v hany]

theorem lookupVal_setVal_ne (vals : List (String × Option ℝ)) (c d : String)
    (v : Option ℝ) (hne : d ≠ c) : lookupVal (setVal vals c v) d = lookupVal vals d := by
  unfold setVal
  rcases hany : vals.any (fun p => p.1 == c) with _ | _
  · simp only [Bool.false_eq_true, if_false]
    unfold lookupVal
    rw [List.find?_append]
    have h1 : List.find? (fun p => p.1 == d) [(c, v)] = none := by
      simp only [List.find?_cons, List.find?_nil]
      have : ((c, v).1 == d) = false := by
        rw [beq_eq_false_iff_ne]
        exact fun h => hne h.symm
      rw [this]
    rw [h1, Option.or_none]
  · simp only [if_true]
    unfold lookupVal
    rw [find?_setVal_map_ne vals c d v hne]


theorem zRowF_key (rows : List SRow) (gcol col : String) (r : SRow) :
    (zRowF rows gcol col r).key = r.key := rfl

theorem zRowF_lookup_ne (rows : List SRow) (gcol col : String) (r : SRow) (d : String)
    (hne : d ≠ col ++ "_z") :
    lookupVal (zRowF rows gcol col r).vals d = lookupVal r.vals d :=
  lookupVal_setVal_ne _ _ _ _ hne

theorem zRowF_lookup_z (rows : List SRow) (gcol col : String) (r : SRow) :
    lookupVal (zRowF rows gcol col r).vals (col ++ "_z") =
      zTransform (groupVals rows gcol (lookupStr r.key gcol) col)
        (lookupVal r.vals col) :=
  lookupVal_setVal_self _ _ _

theorem groupVals_map_invariant (rows : List SRow) (gcol g col : String) (F : SRow → SRow)
    (hkey : ∀ r, (F r).key = r.key)
    (hval : ∀ r, lookupVal (F r).vals col = lookupVal r.vals col) :
    groupVals (rows.map F) gcol g col = groupVals rows gcol g col := by
  unfold groupVals
  rw [List.filter_map, List.filterMap_map]
  have hfilter : (fun r => lookupStr r.key gcol == g) ∘ F = fun r => lookupStr r.key gcol == g := by
    funext r
    simp [Function.comp, hkey r]
  rw [hfilter]
  refine List.filterMap_congr ?_
  intro r _
  simp [Function.comp, hval r]

theorem addZCol_eq_map (rows : List SRow) (gcol col : String) :
    addZCol rows gcol col = rows.map (zRowF rows gcol col) := rfl

/-- The structural effect of the `for col in esg_cols` loop: the output is a
row-wise map of the input, preserving the label columns, preserving every
float column that is not one of the new z-names, and giving each z-column
the transform computed from the input panel. -/
theorem add_esg_zscores_map (gcol : String) : ∀ (cols : List String) (rows : List SRow),
    (∀ c ∈ cols, ∀ c2 ∈ cols, c2 ≠ c ++ "_z") →
    ∃ F : SRow → SRow,
      add_esg_zscores rows cols gcol = rows.map F ∧
      ∀ r, (F r).key = r.key ∧
        (∀ d, (∀ c ∈ cols, d ≠ c ++ "_z") → lookupVal (F r).vals d = lookupVal r.vals d) ∧
        (∀ c ∈ cols, lookupVal (F r).vals (c ++ "_z") =
          zTransform (groupVals rows gcol (lookupStr r.key gcol) c)
            (lookupVal r.vals c)) := by
  intro cols
  induction cols with
  | nil =>
    intro rows _
    refine ⟨id, by simp [add_esg_zscores], ?_⟩
    intro r
    exact ⟨rfl, fun d _ => rfl, by simp⟩
  | cons c rest ih =>
    intro rows hnc
    have hstep : add_esg_zscores rows (c :: rest) gcol =
        add_esg_zscores (addZCol rows gcol c) rest gcol := rfl
    have hnc2 : ∀ c1 ∈ rest, ∀ c2 ∈ rest, c2 ≠ c1 ++ "_z" := by
      intro c1 h1 c2 h2
      exact hnc c1 (List.mem_cons_of_mem _ h1) c2 (List.mem_cons_of_mem _ h2)
    rcases ih (addZCol rows gcol c) hnc2 with ⟨F2, hF2eq, hF2⟩
    refine ⟨fun r => F2 (zRowF rows gcol c r), ?_, ?_⟩
    · rw [hstep, hF2eq, addZCol_eq_map, List.map_map]
      rfl
    · intro r
      refine ⟨?_, ?_, ?_⟩
      · rw [(hF2 (zRowF rows gcol c r)).1, zRowF_key]
      · intro d hd
        rw [(hF2 (zRowF rows gcol c r)).2.1 d
          (fun c2 h2 => hd c2 (List.mem_cons_of_mem _ h2))]
        exact zRowF_lookup_ne rows gcol c r d (hd c (List.mem_cons_self c rest))
      · intro c2 hc2
        rcases List.mem_cons.mp hc2 with rfl | hc2r
        · by_cases hmem : c2 ∈ rest
          · rw [(hF2 (zRowF rows gcol c2 r)).2.2 c2 hmem]
            rw [addZCol_eq_map, groupVals_map_invariant rows gcol _ c2 _
              (zRowF_key rows gcol c2)
              (fun r2 => zRowF_lookup_ne rows gcol c2 r2 c2
                (hnc c2 (List.mem_cons_self c2 rest) c2 (List.mem_cons_self c2 rest)))]
            rw [zRowF_key, zRowF_lookup_ne rows gcol c2 r c2
              (hnc c2 (List.mem_cons_self c2 rest) c2 (List.mem_cons_self c2 rest))]
          · rw [(hF2 (zRowF rows gcol c2 r)).2.1 (c2 ++ "_z")
              (fun c3 h3 heq => hmem (string_append_cancel heq ▸ h3))]
            exact zRowF_lookup_z rows gcol c2 r
        · rw [(hF2 (zRowF rows gcol c r)).2.2 c2 hc2r]
          have hne : c2 ≠ c ++ "_z" :=
            hnc c (List.mem_cons_self c rest) c2 (List.mem_cons_of_mem _ hc2r)
          rw [addZCol_eq_map, groupVals_map_invariant rows gcol _ c2 _
            (zRowF_key rows gcol c)
            (fun r2 => zRowF_lookup_ne rows gcol c r2 c2 hne)]
          rw [zRowF_key, zRowF_lookup_ne rows gcol c r c2 hne]


theorem sum_map_affine (xs : List ℝ) (m s : ℝ) :
    (xs.map (fun x => (x - m) / s)).sum = (xs.sum - xs.length * m) / s := by
  induction xs with
  | nil => simp
  | cons a l ih =>
    simp only [List.map_cons, List.sum_cons, ih, List.length_cons]
    rw [div_add_div_same]
    push_cast
    ring_nf

theorem sum_map_affine_sq (xs : List ℝ) (m s : ℝ) :
    (xs.map (fun x => ((x - m) / s) ^ 2)).sum =
      (xs.map (fun x => (x - m) ^ 2)).sum / s ^ 2 := by
  induction xs with
  | nil => simp
  | cons a l ih =>
    simp only [List.map_cons, List.sum_cons, ih]
    rw [div_pow, div_add_div_same]

theorem varR_nonneg (xs : List ℝ) (h2 : 2 ≤ xs.length) : 0 ≤ varR xs := by
  unfold varR
  refine div_nonneg (List.sum_nonneg ?_) ?_
  · intro x hx
    rcases List.mem_map.mp hx with ⟨y, -, rfl⟩
    exact sq_nonneg _
  · have : (2 : ℝ) ≤ (xs.length : ℝ) := by exact_mod_cast h2
    linarith

theorem stdR_pos (xs : List ℝ) (h2 : 2 ≤ xs.length) (hv : varR xs ≠ 0) :
    stdR xs ≠ 0 := by
  unfold stdR
  rw [Real.sqrt_ne_zero']
  exact lt_of_le_of_ne (varR_nonneg xs h2) (Ne.symm hv)

theorem meanR_z (xs : List ℝ) (h2 : 2 ≤ xs.length) :
    meanR (xs.map (fun x => (x - meanR xs) / stdR xs)) = 0 := by
  have hn : (xs.length : ℝ) ≠ 0 := by
    have : (2 : ℝ) ≤ (xs.length : ℝ) := by exact_mod_cast h2
    linarith
  unfold meanR
  rw [List.length_map, sum_map_affine]
  rw [show xs.sum - (xs.length : ℝ) * (xs.sum / xs.length) = 0 by field_simp]
  rw [zero_div, zero_div]

theorem varR_z (xs : List ℝ) (h2 : 2 ≤ xs.length) (hv : varR xs ≠ 0) :
    varR (xs.map (fun x => (x - meanR xs) / stdR xs)) = 1 := by
  have hmean := meanR_z xs h2
  unfold varR
  rw [List.length_map, hmean]
  have hsq : (List.map (fun z => (z - 0) ^ 2)
      (xs.map (fun x => (x - meanR xs) / stdR xs))).sum =
      (xs.map (fun x => (x - meanR xs) ^ 2)).sum / stdR xs ^ 2 := by
    rw [List.map_congr_left (fun z _ => by rw [sub_zero])]
    rw [List.map_map]
    exact sum_map_affine_sq xs (meanR xs) (stdR xs)
  rw [hsq]
  have hss : stdR xs ^ 2 = varR xs := Real.sq_sqrt (varR_nonneg xs h2)
  rw [div_right_comm, hss]
  have hvv : (xs.map (fun x => (x - meanR xs) ^ 2)).sum / ((xs.length : ℝ) - 1) = varR xs := rfl
  rw [hvv, div_self hv]

theorem stdR_z (xs : List ℝ) (h2 : 2 ≤ xs.length) (hv : varR xs ≠ 0) :
    stdR (xs.map (fun x => (x - meanR xs) / stdR xs)) = 1 := by
  calc stdR (xs.map (fun x => (x - meanR xs) / stdR xs))
      = Real.sqrt (varR (xs.map (fun x => (x - meanR xs) / stdR xs))) := rfl
    _ = Real.sqrt 1 := by rw [varR_z xs h2 hv]
    _ = 1 := Real.sqrt_one

theorem zTransform_some (xs : List ℝ) (x : ℝ) (h2 : 2 ≤ xs.length) (hv : varR xs ≠ 0) :
    zTransform xs (some x) = some ((x - meanR xs) / stdR xs) := by
  simp only [zTransform]
  rw [if_neg (by omega), if_neg (stdR_pos xs h2 hv)]

/-- The z-column of one group, as the affine image of its raw values. -/
theorem groupVals_z_col (rows : List SRow) (F : SRow → SRow) (gcol g col : String)
    (hkey : ∀ r, (F r).key = r.key)
    (hz : ∀ r, lookupVal (F r).vals (col ++ "_z") =
      zTransform (groupVals rows gcol (lookupStr r.key gcol) col) (lookupVal r.vals col))
    (h2 : 2 ≤ (groupVals rows gcol g col).length)
    (hv : varR (groupVals rows gcol g col) ≠ 0) :
    groupVals (rows.map F) gcol g (col ++ "_z") =
      (groupVals rows gcol g col).map
        (fun x => (x - meanR (groupVals rows gcol g col)) /
          stdR (groupVals rows gcol g col)) := by
  unfold groupVals
  rw [List.filter_map, List.filterMap_map]
  have hfilter : (fun r => lookupStr r.key gcol == g) ∘ F =
      fun r => lookupStr r.key gcol == g := by
    funext r
    simp [Function.comp, hkey r]
  rw [hfilter, List.map_filterMap]
  refine List.filterMap_congr ?_
  intro r hr
  have hg : lookupStr r.key gcol = g := eq_of_beq (List.mem_filter.mp hr).2
  have hzr := hz r
  rw [hg] at hzr
  simp only [Function.comp]
  rw [hzr]
  rcases lookupVal r.vals col with _ | x
  · rfl
  · rw [zTransform_some _ _ h2 hv, Option.map_some']
    rfl


theorem zTransform_none (xs : List ℝ) : zTransform xs none = none := rfl

theorem zTransform_short (xs : List ℝ) (h : xs.length < 2) :
    ∀ v, zTransform xs v = none := by
  intro v
  rcases v with _ | x
  · rfl
  · simp only [zTransform]
    rw [if_pos h]

theorem zTransform_var_zero (xs : List ℝ) (h : varR xs = 0) :
    ∀ v, zTransform xs v = none := by
  intro v
  rcases v with _ | x
  · rfl
  · simp only [zTransform]
    by_cases hlen : xs.length < 2
    · rw [if_pos hlen]
    · rw [if_neg hlen, if_pos (by rw [stdR, h, Real.sqrt_zero])]

/-- C3: within every `group_col` group of every panel, for every target
column: a group with at least two non-missing inputs and nonzero sample
variance gets a z-score column of sample mean exactly 0 and sample
standard deviation exactly 1 (denominator `n - 1`), each row holding
`(x - mean) / std`; a singleton group, a zero-variance group, or a missing
input makes the z-score missing; and no error is raised (the transform is
total). -/
theorem add_esg_zscores_standardizes (rows : List SRow) (esg_cols : List String)
    (gcol col g : String)
    (hcol : col ∈ esg_cols)
    (hnc : ∀ c ∈ esg_cols, ∀ c2 ∈ esg_cols, c2 ≠ c ++ "_z") :
    (2 ≤ (groupVals rows gcol g col).length →
      varR (groupVals rows gcol g col) ≠ 0 →
      meanR (groupVals (add_esg_zscores rows esg_cols gcol) gcol g (col ++ "_z")) = 0 ∧
      stdR (groupVals (add_esg_zscores rows esg_cols gcol) gcol g (col ++ "_z")) = 1) ∧
    (∀ (i : Nat) (r : SRow), rows[i]? = some r → lookupStr r.key gcol = g →
      ∃ r2, (add_esg_zscores rows esg_cols gcol)[i]? = some r2 ∧
        ((groupVals rows gcol g col).length = 1 →
          lookupVal r2.vals (col ++ "_z") = none) ∧
        (varR (groupVals rows gcol g col) = 0 →
          lookupVal r2.vals (col ++ "_z") = none) ∧
        (lookupVal r.vals col = none → lookupVal r2.vals (col ++ "_z") = none) ∧
        (∀ x, lookupVal r.vals col = some x →
          2 ≤ (groupVals rows gcol g col).length →
          varR (groupVals rows gcol g col) ≠ 0 →
          lookupVal r2.vals (col ++ "_z") =
            some ((x - meanR (groupVals rows gcol g col)) /
              stdR (groupVals rows gcol g col)))) := by
  rcases add_esg_zscores_map gcol esg_cols rows hnc with ⟨F, hFeq, hF⟩
  constructor
  · intro h2 hv
    rw [hFeq, groupVals_z_col rows F gcol g col (fun r => (hF r).1)
      (fun r => (hF r).2.2 col hcol) h2 hv]
    exact ⟨meanR_z _ h2, stdR_z _ h2 hv⟩
  · intro i r hi hg
    refine ⟨F r, ?_, ?_, ?_, ?_, ?_⟩
    · rw [hFeq, List.getElem?_map, hi, Option.map_some']
    · intro h1
      rw [(hF r).2.2 col hcol, hg]
      exact zTransform_short _ (by omega) _
    · intro hzero
      rw [(hF r).2.2 col hcol, hg]
      exact zTransform_var_zero _ hzero _
    · intro hmiss
      rw [(hF r).2.2 col hcol, hg, hmiss]
      rfl
    · intro x hx h2 hv
      rw [(hF r).2.2 col hcol, hg, hx]
      exact zTransform_some _ _ h2 hv

theorem add_esg_zscores_standardizes_witness :
    "e" ∈ ["e"] ∧
    (∀ c ∈ ["e"], ∀ c2 ∈ ["e"], c2 ≠ c ++ "_z") ∧
    ((2 ≤ (groupVals zRows "sector" "g" "e").length →
      varR (groupVals zRows "sector" "g" "e") ≠ 0 →
      meanR (groupVals (add_esg_zscores zRows ["e"] "sector") "sector" "g" ("e" ++ "_z")) = 0 ∧
      stdR (groupVals (add_esg_zscores zRows ["e"] "sector") "sector" "g" ("e" ++ "_z")) = 1) ∧
    (∀ (i : Nat) (r : SRow), zRows[i]? = some r → lookupStr r.key "sector" = "g" →
      ∃ r2, (add_esg_zscores zRows ["e"] "sector")[i]? = some r2 ∧
        ((groupVals zRows "sector" "g" "e").length = 1 →
          lookupVal r2.vals ("e" ++ "_z") = none) ∧
        (varR (groupVals zRows "sector" "g" "e") = 0 →
          lookupVal r2.vals ("e" ++ "_z") = none) ∧
        (lookupVal r.vals "e" = none → lookupVal r2.vals ("e" ++ "_z") = none) ∧
        (∀ x, lookupVal r.vals "e" = some x →
          2 ≤ (groupVals zRows "sector" "g" "e").length →
          varR (groupVals zRows "sector" "g" "e") ≠ 0 →
          lookupVal r2.vals ("e" ++ "_z") =
            some ((x - meanR (groupVals zRows "sector" "g" "e")) /
              stdR (groupVals zRows "sector" "g" "e"))))) :=
  ⟨by decide, by decide,
   add_esg_zscores_standardizes zRows ["e"] "sector" "e" "g" (by decide) (by decide)⟩

theorem setVal_fresh (vals : List (String × Option ℝ)) (c : String) (v : Option ℝ)
    (hfresh : ∀ p ∈ vals, p.1 ≠ c) : setVal vals c v = vals ++ [(c, v)] := by
  unfold setVal
  have hany : vals.any (fun p => p.1 == c) = false := by
    rw [List.any_eq_false]
    intro p hp
    rw [Bool.not_eq_true, beq_eq_false_iff_ne]
    exact hfresh p hp
  rw [hany]
  simp

/-- C9: `add_esg_zscores` is additive and non-destructive: row for row, the
output keeps the label columns and the whole original value-column list as
an unchanged prefix, followed by exactly one new column per target column,
named with the `_z` suffix. -/
theorem add_esg_zscores_additive (gcol : String) : ∀ (cols : List String) (rows : List SRow),
    (∀ c ∈ cols, ∀ r ∈ rows, ∀ p ∈ r.vals, p.1 ≠ c ++ "_z") →
    (cols.map (fun c => c ++ "_z")).Nodup →
    (add_esg_zscores rows cols gcol).length = rows.length ∧
    ∀ (i : Nat) (r : SRow), rows[i]? = some r →
      ∃ r2, (add_esg_zscores rows cols gcol)[i]? = some r2 ∧
        r2.key = r.key ∧
        ∃ zs, r2.vals = r.vals ++ zs ∧
          zs.map Prod.fst = cols.map (fun c => c ++ "_z") := by
  intro cols
  induction cols with
  | nil =>
    intro rows _ _
    refine ⟨rfl, ?_⟩
    intro i r hi
    exact ⟨r, hi, rfl, [], (List.append_nil _).symm, rfl⟩
  | cons c rest ih =>
    intro rows hfresh hnodup
    have hstep : add_esg_zscores rows (c :: rest) gcol =
        add_esg_zscores (addZCol rows gcol c) rest gcol := rfl
    have hvals1 : ∀ r ∈ rows, (zRowF rows gcol c r).vals =
        r.vals ++ [(c ++ "_z",
          zTransform (groupVals rows gcol (lookupStr r.key gcol) c)
            (lookupVal r.vals c))] := by
      intro r hr
      exact setVal_fresh _ _ _ (hfresh c (List.mem_cons_self c rest) r hr)
    have hfresh1 : ∀ c2 ∈ rest, ∀ r1 ∈ addZCol rows gcol c, ∀ p ∈ r1.vals,
        p.1 ≠ c2 ++ "_z" := by
      intro c2 hc2 r1 hr1 p hp
      rw [addZCol_eq_map] at hr1
      rcases List.mem_map.mp hr1 with ⟨r0, hr0, rfl⟩
      rw [hvals1 r0 hr0] at hp
      rcases List.mem_append.mp hp with hp | hp
      · exact hfresh c2 (List.mem_cons_of_mem _ hc2) r0 hr0 p hp
      · simp only [List.mem_singleton] at hp
        subst hp
        intro heq
        have heq2 : c ++ "_z" = c2 ++ "_z" := heq
        have hcin : c ++ "_z" ∈ rest.map (fun c => c ++ "_z") := by
          rw [heq2]
          exact List.mem_map.mpr ⟨c2, hc2, rfl⟩
        exact (List.nodup_cons.mp hnodup).1 hcin
    rcases ih (addZCol rows gcol c) hfresh1 (List.nodup_cons.mp hnodup).2 with ⟨hlen1, hpt1⟩
    constructor
    · rw [hstep, hlen1, addZCol_eq_map, List.length_map]
    · intro i r hi
      have hi1 : (addZCol rows gcol c)[i]? = some (zRowF rows gcol c r) := by
        rw [addZCol_eq_map, List.getElem?_map, hi, Option.map_some']
      rcases hpt1 i (zRowF rows gcol c r) hi1 with ⟨r2, hr2, hkey, zs, hzs, hnames⟩
      refine ⟨r2, by rw [hstep]; exact hr2, by rw [hkey, zRowF_key], ?_⟩
      have hrmem : r ∈ rows := List.getElem?_mem hi
      refine ⟨(c ++ "_z",
        zTransform (groupVals rows gcol (lookupStr r.key gcol) c)
          (lookupVal r.vals c)) :: zs, ?_, ?_⟩
      · rw [hzs, hvals1 r hrmem, List.append_assoc]
        rfl
      · simp only [List.map_cons, hnames, List.map_map]

theorem add_esg_zscores_additive_witness :
    (∀ c ∈ ["e"], ∀ r ∈ zRows, ∀ p ∈ r.vals, p.1 ≠ c ++ "_z") ∧
    ((["e"].map (fun c => c ++ "_z")).Nodup) ∧
    ((add_esg_zscores zRows ["e"] "sector").length = zRows.length ∧
    ∀ (i : Nat) (r : SRow), zRows[i]? = some r →
      ∃ r2, (add_esg_zscores zRows ["e"] "sector")[i]? = some r2 ∧
        r2.key = r.key ∧
        ∃ zs, r2.vals = r.vals ++ zs ∧
          zs.map Prod.fst = ["e"].map (fun c => c ++ "_z")) :=
  ⟨by decide, by decide,
   add_esg_zscores_additive "sector" ["e"] zRows (by decide) (by decide)⟩


end ESGPrep
